import Mathlib

/-!
Verification of the VizMind AI document-to-mind-map pipeline.

This file gives a shallow embedding, in Lean 4, of the algorithmic core of the
repository and proves (or refutes) the specification claims about it:

* `normalize_label` (src/backend/app/utils/cmvs_helpers.py) — label
  normalization with acronym handling;
* the greedy embedding-similarity merge loop and merge-map resolution of
  `process_graph_data` (src/app/langgraph_pipeline/nodes.py);
* `generate_react_flow_data` (src/backend/app/utils/cmvs_helpers.py) — the
  triple-based React Flow layout path (the `hierarchical_concepts is None`
  branch) and the fixed fallback graph of `_create_fallback_react_flow`
  (src/backend/app/langgraph_pipeline/nodes/cmvs_nodes.py);
* the subtree-width tree layout `position_nodes_horizontally`
  (src/backend/app/langgraph_pipeline/nodes/cmvs_nodes.py);
* the RAG grading decision (`grade_db_retrieval`,
  src/backend/app/langgraph_pipeline/nodes/rag_nodes.py) and the workflow
  routing of `rag_builder.py` and `graph_builder.py`;
* the document-processing workflow state machine
  (src/backend/app/langgraph_pipeline/builder/graph_builder.py together with
  `set_error` / `transition_stage` from state.py);
* outline cleaning and hierarchy parsing (`_clean_outline_text`,
  `_parse_outline_to_hierarchy`,
  src/backend/app/langgraph_pipeline/nodes/document_processing_nodes.py).

Python strings are modelled as lists of Unicode code points (`List Nat`); the
bridge `codes` turns a Lean string literal into that representation.  Case
operations (`str.upper`, `str.lower`, `str.capitalize`, `str.isupper`) are
modelled on the ASCII range, which is the range exercised by the pipeline.
-/

namespace VizMind

/-- Code points of a string literal (the bridge between Lean string literals
and the `List Nat` model of Python strings). -/
def codes (s : String) : List Nat := s.data.map Char.toNat

/-- Python whitespace characters (space, tab, newline, carriage return,
vertical tab, form feed), as used by `str.strip()` / `str.split()`. -/
def pyIsSpace (n : Nat) : Bool :=
  n = 32 || n = 9 || n = 10 || n = 13 || n = 11 || n = 12

def isAsciiUpper (n : Nat) : Bool := 65 ≤ n && n ≤ 90

def isAsciiLower (n : Nat) : Bool := 97 ≤ n && n ≤ 122

def isAsciiAlpha (n : Nat) : Bool := isAsciiUpper n || isAsciiLower n

/-- `str.upper` on one character (ASCII model). -/
def pyUpperChar (n : Nat) : Nat := if isAsciiLower n then n - 32 else n

/-- `str.lower` on one character (ASCII model). -/
def pyLowerChar (n : Nat) : Nat := if isAsciiUpper n then n + 32 else n

/-- `str.upper` on a word. -/
def pyUpper (w : List Nat) : List Nat := w.map pyUpperChar

/-- `str.lower` on a word. -/
def pyLower (w : List Nat) : List Nat := w.map pyLowerChar

/-- `str.isupper`: at least one cased character and no lowercase cased
character (ASCII model: cased = letter). -/
def pyIsUpper (w : List Nat) : Bool :=
  w.any isAsciiAlpha && w.all (fun c => !isAsciiLower c)

/-- `str.capitalize`: first character upper-cased, the rest lower-cased
(ASCII model of the title-casing of the first character). -/
def pyCapitalize : List Nat → List Nat
  | [] => []
  | c :: rest => pyUpperChar c :: rest.map pyLowerChar

/-- `str.lstrip()`. -/
def lstripWs (l : List Nat) : List Nat := l.dropWhile pyIsSpace

/-- `str.strip()` (whitespace from both ends). -/
def stripWs (l : List Nat) : List Nat :=
  ((l.dropWhile pyIsSpace).reverse.dropWhile pyIsSpace).reverse

/-- One step of the word grouping behind `str.split()`: whitespace starts a
new (initially empty) group, a non-space character is prepended to the
current group. -/
def splitWsStep (c : Nat) (acc : List (List Nat)) : List (List Nat) :=
  if pyIsSpace c then [] :: acc
  else
    match acc with
    | [] => [[c]]
    | w :: ws => (c :: w) :: ws

/-- `str.split()` with no argument: split on whitespace runs, dropping empty
tokens. -/
def pySplitWs (l : List Nat) : List (List Nat) :=
  (l.foldr splitWsStep []).filter (fun w => w ≠ [])

/-- `" ".join(words)`. -/
def joinSpace : List (List Nat) → List Nat
  | [] => []
  | [w] => w
  | w :: ws => w ++ 32 :: joinSpace ws

/-- The acronym allow-list of `normalize_label`
(src/backend/app/utils/cmvs_helpers.py). -/
def acronymSet : List (List Nat) :=
  ["AI", "ML", "API", "CPU", "GPU", "RAM", "SQL", "XML", "JSON", "HTML",
   "CSS", "PHP", "iOS", "UI", "UX", "SEO", "CRM", "ERP", "ROI", "KPI",
   "SDG", "GDP", "NASA", "WHO", "FAQ", "CEO", "CTO", "HR", "IT", "PR"].map codes

/-- Per-word transformation of `normalize_label`: keep short all-caps words
and allow-listed acronyms upper-case, title-case everything else. -/
def normalizeWord (w : List Nat) : List Nat :=
  if (w.length ≤ 4 && pyIsUpper w) || acronymSet.contains (pyUpper w) then
    pyUpper w
  else
    pyCapitalize (pyLower w)

/-- `normalize_label` (src/backend/app/utils/cmvs_helpers.py), on the
code-point model of strings: `" ".join(label.strip().split())`, split again
into words, each word normalized by `normalizeWord`, re-joined with single
spaces.  Empty input is returned unchanged. -/
def normalize_label (label : List Nat) : List Nat :=
  if label = [] then []
  else
    let normalized := joinSpace (pySplitWs (stripWs label))
    let words := pySplitWs normalized
    joinSpace (words.map normalizeWord)

/-! ### Concept graph builder: similarity merge and triple post-processing
(`process_graph_data`, src/app/langgraph_pipeline/nodes.py). -/

/-- A `(source, target, relation)` triple, the three fields being Python
strings in the code-point model.  The Python dicts always carry exactly these
three keys at this point of the pipeline (the `all(k in triple ...)` key
check of `process_graph_data` is represented by the structure itself). -/
structure Triple where
  source : List Nat
  target : List Nat
  relation : List Nat
deriving DecidableEq

/-- The similarity threshold `0.85` of `process_graph_data`. -/
def similarity_threshold : ℚ := 17 / 20

/-- `unique_node_labels[k]` (out-of-range indices never occur in the loops). -/
def nthLabel (labels : List (List Nat)) (k : Nat) : List Nat := labels.getD k []

/-- `node_map[key] = value` as a functional update of the total merge map. -/
def updMap (m : List Nat → List Nat) (key value : List Nat) : List Nat → List Nat :=
  fun x => if x = key then value else m x

/-- One inner-loop iteration of the similarity merge: skip `labels[j]` if it
was already redirected, otherwise redirect it to `labels[i]` when
`cosine_matrix[i, j] > similarity_threshold`. -/
def mergeStep (labels : List (List Nat)) (sim : Nat → Nat → ℚ) (i j : Nat)
    (m : List Nat → List Nat) : List Nat → List Nat :=
  if m (nthLabel labels j) ≠ nthLabel labels j then m
  else if similarity_threshold < sim i j then
    updMap m (nthLabel labels j) (nthLabel labels i)
  else m

/-- The inner loop `for j in range(i + 1, len(unique_node_labels))`, started
at position `j`. -/
def innerFrom (labels : List (List Nat)) (sim : Nat → Nat → ℚ) (i j : Nat)
    (m : List Nat → List Nat) : List Nat → List Nat :=
  if j < labels.length then
    innerFrom labels sim i (j + 1) (mergeStep labels sim i j m)
  else m
termination_by labels.length - j

/-- The outer loop `for i in range(len(unique_node_labels))`, started at
position `i`: a label that was already redirected performs no merges. -/
def outerFrom (labels : List (List Nat)) (sim : Nat → Nat → ℚ) (i : Nat)
    (m : List Nat → List Nat) : List Nat → List Nat :=
  if i < labels.length then
    outerFrom labels sim (i + 1)
      (if m (nthLabel labels i) ≠ nthLabel labels i then m
       else innerFrom labels sim i (i + 1) m)
  else m
termination_by labels.length - i

/-- The merge map built by the pairwise similarity loop of
`process_graph_data`, starting from the identity map
(`node_map = {label: label for label in unique_node_labels}`; keys outside
`labels` behave as the identity, matching `node_map.get(x, x)`). -/
def buildNodeMap (labels : List (List Nat)) (sim : Nat → Nat → ℚ) :
    List Nat → List Nat :=
  outerFrom labels sim 0 (fun x => x)

/-- The chained-mapping resolution
`while node_map.get(x, x) != x: x = node_map[x]`, with explicit fuel.
(The theorems below show the result is fuel-independent once `fuel ≥ 2`.) -/
def resolveLabel (m : List Nat → List Nat) : Nat → List Nat → List Nat
  | 0, x => x
  | fuel + 1, x => if m x = x then x else resolveLabel m fuel (m x)

/-- First-occurrence collection of the endpoint labels of the normalized
triples (the Python code builds a `set` and takes `list(...)` of it, whose
iteration order is unspecified; we fix first-occurrence order — the theorems
proved below hold for every labels/similarity enumeration, and the concrete
evaluations use at most one label). -/
def collectLabels (triples : List Triple) : List (List Nat) :=
  triples.foldl
    (fun acc t =>
      let acc1 := if acc.contains t.source then acc else acc ++ [t.source]
      if acc1.contains t.target then acc1 else acc1 ++ [t.target])
    []

/-- Deduplication of the resolved triples: `tuple(sorted(triple.items()))` is
equal for two triples exactly when all three fields agree, so the set-based
deduplication keeps the first occurrence of each distinct triple. -/
def dedupTriples (triples : List Triple) : List Triple :=
  (triples.foldl
    (fun (acc : List Triple × List Triple) t =>
      if acc.2.contains t then acc else (acc.1 ++ [t], acc.2 ++ [t]))
    ([], [])).1

/-- `process_graph_data` (src/app/langgraph_pipeline/nodes.py), from
`raw_triples` to `processed_triples` (the returned `error_message` and the
logging are omitted): basic validation (three non-empty fields), endpoint
normalization, similarity merge over the unique labels (only when there is
more than one label), chained merge-map resolution, and deduplication.
The cosine matrix is abstracted as the function `sim`. -/
def processGraphData (sim : Nat → Nat → ℚ) (raw : List Triple) : List Triple :=
  if raw = [] then []
  else
    let normed := raw.filterMap (fun t =>
      if t.source = [] ∨ t.target = [] ∨ t.relation = [] then none
      else some ⟨normalize_label t.source, normalize_label t.target,
                 stripWs t.relation⟩)
    if normed = [] then []
    else
      let labels := collectLabels normed
      let m := if 1 < labels.length then buildNodeMap labels sim else fun x => x
      let fuel := labels.length + 2
      let resolved := normed.map (fun t =>
        ⟨resolveLabel m fuel t.source, resolveLabel m fuel t.target, t.relation⟩)
      dedupTriples resolved

/-! ### React Flow generation from triples
(`generate_react_flow_data`, src/backend/app/utils/cmvs_helpers.py, on the
`hierarchical_concepts is None` path, where `_determine_node_level` returns
the default body level 4 for every label) and the fixed fallback graph
(`_create_fallback_react_flow`,
src/backend/app/langgraph_pipeline/nodes/cmvs_nodes.py). -/

/-- A React Flow node.  `level` and `original_label` are optional because the
single fallback node of the empty-triples branch carries neither; the `type`,
`style` and `nodeType` presentation fields are omitted. -/
structure RFNode where
  id : String
  label : List Nat
  level : Option Nat
  x : Int
  y : Int
  original_label : Option (List Nat)
deriving DecidableEq

/-- A React Flow edge (`type`/`style`/`animated` presentation fields
omitted; `label` is present only when the relation is meaningful). -/
structure RFEdge where
  id : String
  source : String
  target : String
  label : Option (List Nat)
deriving DecidableEq

structure RFData where
  nodes : List RFNode
  edges : List RFEdge
deriving DecidableEq

/-- The single node returned by `generate_react_flow_data` when no triples
are provided. -/
def emptyNodeRF : RFNode :=
  ⟨"empty-node", codes "No document structure found", none, 250, 150, none⟩

/-- The fixed two-node fallback graph of `_create_fallback_react_flow`. -/
def createFallbackReactFlow : RFData :=
  ⟨[⟨"fallback-document", codes "Document Structure", some 0, 50, 50, none⟩,
    ⟨"fallback-content", codes "Content", some 1, 350, 130, none⟩],
   [⟨"edge-fallback-document-content", "fallback-document", "fallback-content",
     none⟩]⟩

/-- Collection of `all_nodes`: the dict keyed by the stripped endpoint labels,
in insertion order (a falsy — empty — label is not added; re-insertion keeps
the first position and stores the same `level` value, here always 4). -/
def collectRFLabels (triples : List Triple) : List (List Nat × Nat) :=
  triples.foldl
    (fun acc t =>
      let s := stripWs t.source
      let u := stripWs t.target
      let acc1 :=
        if s ≠ [] ∧ (acc.map Prod.fst).contains s = false then acc ++ [(s, 4)]
        else acc
      if u ≠ [] ∧ (acc1.map Prod.fst).contains u = false then acc1 ++ [(u, 4)]
      else acc1)
    []

/-- Stable insertion of one labelled node by `level`, matching the stability
of Python `sorted(..., key=lambda x: x[1]["level"])`. -/
def insertByLevel (x : List Nat × Nat) :
    List (List Nat × Nat) → List (List Nat × Nat)
  | [] => [x]
  | y :: ys => if y.2 < x.2 then y :: insertByLevel x ys else x :: y :: ys

/-- Stable sort of the node list by hierarchy level. -/
def sortByLevel : List (List Nat × Nat) → List (List Nat × Nat)
  | [] => []
  | x :: xs => insertByLevel x (sortByLevel xs)

/-- Y positions per level in `_create_hierarchical_layout`
(`{0: 50, 1: 200, 2: 350, 3: 500, 4: 650}`, default 650). -/
def levelY (level : Nat) : Int :=
  if level = 0 then 50 else if level = 1 then 200 else if level = 2 then 350
  else if level = 3 then 500 else 650

/-- `_create_hierarchical_layout`: assign ids `node-i`, X positions
`100 + 300 * (count of earlier nodes at the same level)`, level-dependent Y,
and the normalized display label (the per-node print statements and styles
are omitted).  `i` is the running node index and `counts` the
`level_counts` table. -/
def layoutRFNodes : List (List Nat × Nat) → Nat → (Nat → Nat) → List RFNode
  | [], _, _ => []
  | (label, level) :: rest, i, counts =>
    ⟨"node-" ++ toString i, normalize_label label, some level,
      100 + 300 * (counts level : Int), levelY level, some label⟩ ::
      layoutRFNodes rest (i + 1)
        (fun lv => if lv = level then counts lv + 1 else counts lv)

/-- `label_to_id`: the first positioned node whose `original_label` is the
given label. -/
def labelToId (nodes : List RFNode) (label : List Nat) : Option String :=
  (nodes.find? (fun n => n.original_label = some label)).map RFNode.id

/-- Truthiness of `label_to_id.get(...)`: non-`None` and non-empty. -/
def truthyId : Option String → Bool
  | none => false
  | some s => s ≠ ""

/-- Edge construction of `generate_react_flow_data`: one edge per triple
whose two stripped endpoint labels resolve to distinct truthy node ids; the
edge counter advances only when an edge is created, and the relation becomes
the edge label unless it is empty or a generic "related to"/"relates to". -/
def buildRFEdges (lk : List Nat → Option String) :
    List Triple → Nat → List RFEdge
  | [], _ => []
  | t :: rest, counter =>
    let sl := stripWs t.source
    let tl := stripWs t.target
    let rel := stripWs t.relation
    let sid := lk sl
    let tid := lk tl
    if truthyId sid ∧ truthyId tid ∧ sid ≠ tid then
      { id := "edge-" ++ toString counter,
        source := sid.getD "", target := tid.getD "",
        label :=
          if rel ≠ [] ∧
              (pyLower rel) ∉ ([[], codes "related to", codes "relates to"]) then
            some rel
          else none } :: buildRFEdges lk rest (counter + 1)
    else buildRFEdges lk rest counter

/-- `generate_react_flow_data` (src/backend/app/utils/cmvs_helpers.py) with
`hierarchical_concepts = None`: the empty-triples branch returns the single
`empty-node`; otherwise the unique stripped labels are collected, sorted by
level (all 4 on this path), positioned by `_create_hierarchical_layout`, and
edges are generated for distinct-endpoint triples. -/
def generateReactFlowData (triples : List Triple) : RFData :=
  if triples = [] then ⟨[emptyNodeRF], []⟩
  else
    let sorted := sortByLevel (collectRFLabels triples)
    let nodes := layoutRFNodes sorted 0 (fun _ => 0)
    ⟨nodes, buildRFEdges (labelToId nodes) triples 0⟩

/-! ### Subtree-width tree layout
(`calculate_subtree_width` and `position_nodes_horizontally` inside
`_create_hierarchical_react_flow`,
src/backend/app/langgraph_pipeline/nodes/cmvs_nodes.py).
Layout constants: `LEVEL_HEIGHT = 150`, `NODE_WIDTH = 250`, `START_X = 50`,
`START_Y = 50`. -/

/-- A hierarchy node as consumed by the layout: a `title` and `children`
(the other dict fields play no role in positioning). -/
inductive HNode where
  | mk (title : List Nat) (children : List HNode)

def HNode.title : HNode → List Nat
  | .mk t _ => t

def HNode.children : HNode → List HNode
  | .mk _ cs => cs

mutual

/-- `calculate_subtree_width`: 1 for a leaf, otherwise the total width of the
children (with a minimum of 1). -/
def subtreeWidth : HNode → Nat
  | .mk _ cs => if cs.isEmpty then 1 else max 1 (subtreeWidthList cs)

/-- Sum of the subtree widths of a list of nodes. -/
def subtreeWidthList : List HNode → Nat
  | [] => 0
  | c :: cs => subtreeWidth c + subtreeWidthList cs

end

/-- A positioned layout node: stripped title, hierarchy level and pixel
position (the generated clean node id, edge list and styles are omitted —
they do not influence the coordinates). -/
structure LNode where
  label : List Nat
  level : Nat
  x : Int
  y : Int
deriving DecidableEq

/-- `position_nodes_horizontally(nodes_list, level, start_x, ...)`: emits the
positioned nodes in traversal order (node, then its subtree, then the next
sibling) and returns the final `current_x`.  A node whose stripped title is
empty is skipped entirely (it neither emits a node nor advances
`current_x`).  A node with children is placed at
`max(current_x + (children_pixel_width - NODE_WIDTH) // 2, current_x)`
(Python floor division, hence `Int.fdiv`), its children are positioned
recursively starting at the node's own `current_x`, and `current_x` then
advances by `subtree_width * NODE_WIDTH`. -/
def positionNodesHorizontally : List HNode → Nat → Int → List LNode × Int
  | [], _, currentX => ([], currentX)
  | HNode.mk title cs :: rest, level, currentX =>
    let t := stripWs title
    if t = [] then positionNodesHorizontally rest level currentX
    else
      let w := subtreeWidth (HNode.mk title cs)
      let nodeX : Int :=
        if cs.isEmpty then currentX
        else
          max (currentX + Int.fdiv ((subtreeWidthList cs : Int) * 250 - 250) 2)
            currentX
      let node : LNode := ⟨t, level, nodeX, 50 + 150 * (level : Int)⟩
      let childNodes :=
        if cs.isEmpty then []
        else (positionNodesHorizontally cs (level + 1) currentX).1
      let restOut :=
        positionNodesHorizontally rest level (currentX + (w : Int) * 250)
      (node :: (childNodes ++ restOut.1), restOut.2)
termination_by l => sizeOf l
decreasing_by
  all_goals simp_wf
  all_goals omega

/-! ### RAG workflow routing
(`grade_db_retrieval` and `CONFIDENCE_THRESHOLD_FOR_DB_ONLY`,
src/backend/app/langgraph_pipeline/nodes/rag_nodes.py; conditional edges of
`build_rag_graph`, src/backend/app/langgraph_pipeline/builder/rag_builder.py;
`_route_after_retrieval` and the conditional edges of `create_rag_graph`,
src/backend/app/langgraph_pipeline/builder/graph_builder.py). -/

/-- `CONFIDENCE_THRESHOLD_FOR_DB_ONLY = 0.6`. -/
def CONFIDENCE_THRESHOLD_FOR_DB_ONLY : ℚ := 3 / 5

/-- The decision logic at the end of `grade_db_retrieval`, once a grade
`(is_sufficient, confidence)` has been obtained: sufficient with confidence
at least the threshold routes to generation from the retrieved documents,
sufficient with low confidence routes to web search, insufficient routes to
web search. -/
def gradeDbDecision (is_sufficient : Bool) (confidence : ℚ) : String :=
  if is_sufficient = true ∧ CONFIDENCE_THRESHOLD_FOR_DB_ONLY ≤ confidence then
    "generate_from_db"
  else if is_sufficient = true ∧ confidence < CONFIDENCE_THRESHOLD_FOR_DB_ONLY then
    "perform_web_search"
  else
    "perform_web_search"

/-- The conditional edge map after `grade_db_retrieval` in `build_rag_graph`
(rag_builder.py): `generate_from_db → generate_final_answer`,
`perform_web_search → web_search`. -/
def ragBuilderCondEdge (status : String) : Option String :=
  if status = "generate_from_db" then some "generate_final_answer"
  else if status = "perform_web_search" then some "web_search"
  else none

/-- Modelled from the spec: `should_continue_after_retrieval` is imported
from `app.langgraph_pipeline.nodes.rag_nodes` by graph_builder.py and by the
nodes package `__init__`, but its definition is not present under src/.  Per
the spec (§4.5, retrieve stage): "If zero documents are retrieved, the router
skips grading and goes directly to generation with empty context"; with
documents present, grading is next. -/
def should_continue_after_retrieval (documents : List (List Nat)) : String :=
  if documents.length = 0 then "generate_answer" else "grade_documents"

/-- `_route_after_retrieval` (graph_builder.py): an error routes to
`failed`, otherwise the decision is delegated to
`should_continue_after_retrieval`. -/
def route_after_retrieval (error_message : Option String)
    (documents : List (List Nat)) : String :=
  match error_message with
  | some _ => "failed"
  | none => should_continue_after_retrieval documents

/-- The conditional edge map after `retrieve_documents` in
`create_rag_graph` (graph_builder.py): `grade_documents` and
`generate_answer` go to the nodes of the same name, `failed` goes to END
(modelled as `none`). -/
def ragGraphCondEdgeAfterRetrieval (route : String) : Option String :=
  if route = "grade_documents" then some "grade_documents"
  else if route = "generate_answer" then some "generate_answer"
  else none

/-! ### Document-processing workflow state machine
(`create_document_processing_graph` and `_route_document_processing`,
src/backend/app/langgraph_pipeline/builder/graph_builder.py;
`set_error` and `transition_stage`,
src/backend/app/langgraph_pipeline/state.py).  The six stage functions
(document_processing_nodes.py) each either succeed — returning
`transition_stage(state, <designated stage>)` — or catch their failure and
return `set_error(state, msg)`; the external world (parser, LLM, store) is
abstracted as the per-node outcome `Option String` (`none` = success,
`some msg` = the caught error message). -/

/-- The workflow state restricted to the fields the router inspects. -/
structure DPState where
  stage : String
  error_message : Option String
deriving DecidableEq

/-- `set_error(state, error_message)` (state.py) with the default
`stage="failed"` argument used at every call site. -/
def set_error (s : DPState) (msg : String) : DPState :=
  { s with error_message := some msg, stage := "failed" }

/-- `transition_stage(state, new_stage)` (state.py). -/
def transition_stage (s : DPState) (new_stage : String) : DPState :=
  { s with stage := new_stage }

/-- LangGraph's `END` sentinel. -/
def langgraphEnd : String := "__end__"

/-- The `stage_routing` table of `_route_document_processing`. -/
def dpStageRouting (stage : String) : Option String :=
  if stage = "content_extracted" then some "extract_outline"
  else if stage = "outline_extracted" then some "optimize_mind_map"
  else if stage = "mind_map_generated" then some "chunk_content"
  else if stage = "content_chunked" then some "embed_and_store"
  else if stage = "chunks_embedded" then some "finalize"
  else if stage = "completed" then some langgraphEnd
  else none

/-- `_route_document_processing`: an error routes to `failed`
unconditionally; otherwise the stage table decides, and an unknown stage
routes to `failed`. -/
def routeDocumentProcessing (s : DPState) : String :=
  match s.error_message with
  | some _ => "failed"
  | none =>
    match dpStageRouting s.stage with
    | some nxt => nxt
    | none => "failed"

/-- The stage each node function sets on success. -/
def dpDesignatedStage (node : String) : Option String :=
  if node = "extract_content" then some "content_extracted"
  else if node = "extract_outline" then some "outline_extracted"
  else if node = "optimize_mind_map" then some "mind_map_generated"
  else if node = "chunk_content" then some "content_chunked"
  else if node = "embed_and_store" then some "chunks_embedded"
  else if node = "finalize" then some "completed"
  else none

/-- The conditional edge maps of `create_document_processing_graph`: after
each node, the expected next-stage name maps to the node of that name and
`failed` maps to END (`none`).  `finalize` has an unconditional edge to END
and is handled directly in `runDocumentProcessing`. -/
def dpCondEdge (node : String) (route : String) : Option String :=
  if node = "extract_content" then
    (if route = "extract_outline" then some "extract_outline" else none)
  else if node = "extract_outline" then
    (if route = "optimize_mind_map" then some "optimize_mind_map" else none)
  else if node = "optimize_mind_map" then
    (if route = "chunk_content" then some "chunk_content" else none)
  else if node = "chunk_content" then
    (if route = "embed_and_store" then some "embed_and_store" else none)
  else if node = "embed_and_store" then
    (if route = "finalize" then some "finalize" else none)
  else none

/-- Execution of one node function: success transitions to the node's
designated stage, a caught failure calls `set_error`. -/
def runDPNode (s : DPState) (node : String) (outcome : Option String) : DPState :=
  match outcome with
  | some msg => set_error s msg
  | none => transition_stage s ((dpDesignatedStage node).getD s.stage)

/-- Sequential execution of the compiled document-processing graph from a
node, driven by the router and the conditional edges.  `outcomes` supplies
one outcome per executed node.  Besides the final state, the trace records,
for every node function actually invoked, the `error_message` of the state
it received. -/
def runDocumentProcessing :
    Nat → String → DPState → List (Option String) →
    DPState × List (String × Option String)
  | 0, _, s, _ => (s, [])
  | fuel + 1, node, s, outcomes =>
    let s2 := runDPNode s node (outcomes.headD none)
    if node = "finalize" then (s2, [(node, s.error_message)])
    else
      match dpCondEdge node (routeDocumentProcessing s2) with
      | none => (s2, [(node, s.error_message)])
      | some nxt =>
        let r := runDocumentProcessing fuel nxt s2 outcomes.tail
        (r.1, (node, s.error_message) :: r.2)

/-- The initial state of `execute_document_processing`. -/
def dpInitialState : DPState := ⟨"initialized", none⟩

/-! ### Outline cleaning and hierarchy parsing
(`_clean_outline_text` and `_parse_outline_to_hierarchy`,
src/backend/app/langgraph_pipeline/nodes/document_processing_nodes.py). -/

/-- `text.split("\n")`: split on every newline, keeping empty lines. -/
def splitOnNl (l : List Nat) : List (List Nat) :=
  l.foldr
    (fun c acc =>
      if c = 10 then [] :: acc
      else
        match acc with
        | [] => [[c]]
        | w :: ws => (c :: w) :: ws)
    [[]]

/-- `"\n".join(lines)`. -/
def joinNl : List (List Nat) → List Nat
  | [] => []
  | [w] => w
  | w :: ws => w ++ 10 :: joinNl ws

/-- The explanation-line markers of `_clean_outline_text`
(`("**", "Here", "The", "This", "Outline:", "Format")`). -/
def outlineSkipMarkers : List (List Nat) :=
  ["**", "Here", "The", "This", "Outline:", "Format"].map codes

/-- `str.startswith` against one candidate. -/
def codesStartWith (l p : List Nat) : Bool := l.take p.length == p

/-- The character set of `stripped.strip("- *â€¢")`: `-`, space, `*`, and
the three characters of the mojibake bullet `â` (226), `€` (8364), `¢`
(162). -/
def bulletStripChars : List Nat := [45, 32, 42, 226, 8364, 162]

/-- `str.strip(chars)`: remove characters of the set from both ends. -/
def stripCharSet (l cs : List Nat) : List Nat :=
  ((l.dropWhile (fun c => cs.contains c)).reverse.dropWhile
    (fun c => cs.contains c)).reverse

/-- The per-line part of `_clean_outline_text`: skip blank lines,
explanation lines and very short items; otherwise yield the indentation
level (`min(leading_spaces // 2, 3)`) and the cleaned content. -/
def cleanLine (line : List Nat) : Option (Nat × List Nat) :=
  if stripWs line = [] then none
  else if outlineSkipMarkers.any (fun p => codesStartWith (stripWs line) p) then
    none
  else
    let stripped := lstripWs line
    if stripped = [] then none
    else
      let spaces := line.length - stripped.length
      let level := min (spaces / 2) 3
      let content := stripWs (stripCharSet stripped bulletStripChars)
      if content.length ≤ 2 then none
      else some (level, content)

/-- The deduplicating loop of `_clean_outline_text`: a line whose lowered
cleaned content was already seen is dropped; otherwise its
(level, content) pair is kept and the lowered content recorded. -/
def cleanPairsAux : List (List Nat) → List (List Nat) → List (Nat × List Nat)
  | [], _ => []
  | line :: rest, seen =>
    match cleanLine line with
    | none => cleanPairsAux rest seen
    | some (level, content) =>
      let lower := pyLower content
      if seen.contains lower then cleanPairsAux rest seen
      else (level, content) :: cleanPairsAux rest (lower :: seen)

/-- The (level, cleaned content) pairs kept by `_clean_outline_text`. -/
def cleanOutlinePairs (text : List Nat) : List (Nat × List Nat) :=
  cleanPairsAux (splitOnNl text) []

/-- `_clean_outline_text`: the kept lines re-indented with two spaces per
level and joined with newlines. -/
def cleanOutlineText (text : List Nat) : List Nat :=
  joinNl ((cleanOutlinePairs text).map
    (fun p => List.replicate (2 * p.1) 32 ++ p.2))

/-- A parsed hierarchy node: label and children (`_parse_outline_to_hierarchy`
also stores a random `uuid4` id on each node, which is omitted from the
model). -/
inductive HTree where
  | mk (label : List Nat) (children : List HTree)

def HTree.label : HTree → List Nat
  | .mk l _ => l

def HTree.children : HTree → List HTree
  | .mk _ cs => cs

/-- A stack frame of the parser: a node's label and the children completed
for it so far.  In the Python code the stack holds aliases into the mutable
tree and a child dict is appended to its parent's `children` on creation; in
this functional translation the completed subtree is attached to its parent
when its frame is popped, which attaches the same children in the same
order. -/
def ParseFrame : Type := List Nat × List HTree

def frameToTree (f : ParseFrame) : HTree := HTree.mk f.1 f.2

/-- One pass of `while len(node_stack) > target_stack_size:
node_stack.pop()`, with the popped frame's completed subtree attached to the
frame below it (stack top first).  The loop pops one frame per iteration, so
`fuel = stack.length` iterations always suffice; the fuel makes the
recursion structural. -/
def popLoop : Nat → List ParseFrame → Nat → List ParseFrame
  | 0, stack, _ => stack
  | fuel + 1, stack, target =>
    match stack with
    | top :: parent :: rest =>
      if target < stack.length then
        popLoop fuel ((parent.1, parent.2 ++ [frameToTree top]) :: rest) target
      else stack
    | _ => stack

/-- The stack-popping loop of `_parse_outline_to_hierarchy`. -/
def popToSize (stack : List ParseFrame) (target : Nat) : List ParseFrame :=
  popLoop stack.length stack target

/-- One loop iteration of `_parse_outline_to_hierarchy`: skip the root line
and blank lines, compute the indentation level and label, skip
case-insensitive duplicates, otherwise record the label, pop the stack to
`level + 1`, and attach-and-push the new node. -/
def parseStep (rootLabel : List Nat) (st : List ParseFrame × List (List Nat))
    (line : List Nat) : List ParseFrame × List (List Nat) :=
  if stripWs line = rootLabel then st
  else if stripWs line = [] then st
  else
    let content := lstripWs line
    if content = [] then st
    else
      let level := (line.length - content.length) / 2
      let label := stripWs content
      if st.2.contains (pyLower label) then st
      else
        let used := pyLower label :: st.2
        match popToSize st.1 (level + 1) with
        | [] => ([], used)
        | top :: rest => ((label, []) :: top :: rest, used)

/-- `str.replace(pat, "")` for a non-empty pattern: remove every occurrence
of `pat` (used for stripping the `.pdf`/`.docx`/`.txt` extensions from the
fallback document name). -/
def removeAll : List Nat → List Nat → List Nat
  | s, [] => s
  | [], _ :: _ => []
  | c :: rest, p :: ps =>
    if (c :: rest).take (p :: ps).length = p :: ps then
      removeAll ((c :: rest).drop (p :: ps).length) (p :: ps)
    else c :: removeAll rest (p :: ps)
termination_by s _ => s.length
decreasing_by
  · simp [List.length_drop]
    omega
  · simp

/-- `_parse_outline_to_hierarchy(outline_text, fallback_name)`: on an
entirely blank outline, a single node named after the fallback name with the
file extensions removed; otherwise the first unindented non-empty line (or,
failing that, the first non-empty line) becomes the root, every line equal
to it is skipped, and the remaining lines are folded through `parseStep`
with a stack seeded with the root frame and the used-labels set seeded with
the lowered root label. -/
def parseOutlineToHierarchy (text fallbackName : List Nat) : HTree :=
  let nonEmpty := (splitOnNl text).filter (fun l => stripWs l ≠ [])
  match nonEmpty with
  | [] =>
    HTree.mk
      (removeAll (removeAll (removeAll fallbackName (codes ".pdf"))
        (codes ".docx")) (codes ".txt")) []
  | l0 :: _ =>
    let rootLine :=
      (nonEmpty.find? (fun l =>
        lstripWs l ≠ [] && l.length - (lstripWs l).length = 0)).getD l0
    let rootLabel := stripWs rootLine
    let final :=
      nonEmpty.foldl (parseStep rootLabel) ([(rootLabel, [])], [pyLower rootLabel])
    match popToSize final.1 1 with
    | f :: _ => frameToTree f
    | [] => HTree.mk rootLabel []

/-! ### Invariant bundles used by the proofs. -/

/-- Soundness shape of the merge map: every redirected label is
`labels[j]` for some pair `i < j < n` with above-threshold similarity whose
target `labels[i]` has index at most `bound` and is itself canonical. -/
def MapSound (labels : List (List Nat)) (sim : Nat → Nat → ℚ) (bound : Nat)
    (m : List Nat → List Nat) : Prop :=
  ∀ x, m x ≠ x →
    ∃ a b, a < b ∧ b < labels.length ∧ a ≤ bound ∧
      x = nthLabel labels b ∧ m x = nthLabel labels a ∧
      similarity_threshold < sim a b ∧
      m (nthLabel labels a) = nthLabel labels a

/-- Completeness up to loop position `(i, j)`: no pair already visited by the
double loop is still made of two canonical labels if its similarity exceeds
the threshold. -/
def MapComplete (labels : List (List Nat)) (sim : Nat → Nat → ℚ) (i j : Nat)
    (m : List Nat → List Nat) : Prop :=
  ∀ a b, a < b → b < labels.length → similarity_threshold < sim a b →
    (a < i ∨ (a = i ∧ b < j)) →
    m (nthLabel labels a) ≠ nthLabel labels a
    ∨ m (nthLabel labels b) ≠ nthLabel labels b

/-- The merge map is the identity outside the label set
(`node_map.get(x, x)`). -/
def MapOutside (labels : List (List Nat)) (m : List Nat → List Nat) : Prop :=
  ∀ x, x ∉ labels → m x = x

/-- Wellformedness of a document-processing run result: the final stage is
terminal and every invoked node function received an error-free state. -/
def DPRunGood (r : DPState × List (String × Option String)) : Prop :=
  (r.1.stage = "completed" ∨ r.1.stage = "failed")
  ∧ ∀ p ∈ r.2, p.2 = (none : Option String)

/-! ## Theorems -/

/-! ### C5: the RAG sufficiency gate. -/

/-- C5: once a grade is obtained, `grade_db_retrieval` routes to generation
from the retrieved documents exactly when `is_sufficient` is true and
`confidence ≥ CONFIDENCE_THRESHOLD_FOR_DB_ONLY` (= 0.6); in particular a
sufficient grade with confidence 0.9 routes to `generate_final_answer`
without escalation, while a sufficient grade with confidence 0.4 routes
through the `web_search` escalation node. -/
theorem grade_gate_routes_iff_sufficient_and_confident :
    (∀ (b : Bool) (c : ℚ),
       gradeDbDecision b c = "generate_from_db" ↔
         (b = true ∧ CONFIDENCE_THRESHOLD_FOR_DB_ONLY ≤ c))
    ∧ gradeDbDecision true (9 / 10) = "generate_from_db"
    ∧ ragBuilderCondEdge (gradeDbDecision true (9 / 10)) =
        some "generate_final_answer"
    ∧ gradeDbDecision true (2 / 5) = "perform_web_search"
    ∧ ragBuilderCondEdge (gradeDbDecision true (2 / 5)) = some "web_search" := by
  refine ⟨?_, ?_, ?_, ?_, ?_⟩
  · intro b c
    constructor
    · intro h
      unfold gradeDbDecision at h
      split_ifs at h with h1 h2
      · exact h1
      · exact absurd h (by decide)
      · exact absurd h (by decide)
    · intro h
      unfold gradeDbDecision
      rw [if_pos h]
  · norm_num [gradeDbDecision, CONFIDENCE_THRESHOLD_FOR_DB_ONLY]
  · have h : gradeDbDecision true (9 / 10) = "generate_from_db" := by
      norm_num [gradeDbDecision, CONFIDENCE_THRESHOLD_FOR_DB_ONLY]
    rw [h]; rfl
  · norm_num [gradeDbDecision, CONFIDENCE_THRESHOLD_FOR_DB_ONLY]
  · have h : gradeDbDecision true (2 / 5) = "perform_web_search" := by
      norm_num [gradeDbDecision, CONFIDENCE_THRESHOLD_FOR_DB_ONLY]
    rw [h]; rfl

/-- C5 witness: the confidence-0.9 instance, via the gate theorem. -/
theorem grade_gate_routes_iff_sufficient_and_confident_witness :
    gradeDbDecision true (9 / 10) = "generate_from_db" :=
  grade_gate_routes_iff_sufficient_and_confident.2.1

/-! ### C4: zero retrieved documents skip grading. -/

/-- C4: with no error recorded, retrieving zero documents makes the router
after retrieval choose `generate_answer` directly — the grading node is not
selected, the run is not routed to `failed`, and the conditional edge map
sends the run straight to the generation node.  (The router
`should_continue_after_retrieval` is modelled from the spec because only its
import, not its definition, is present under src/.) -/
theorem zero_documents_route_directly_to_generation :
    ∀ documents : List (List Nat), documents = [] →
      route_after_retrieval none documents = "generate_answer"
      ∧ route_after_retrieval none documents ≠ "grade_documents"
      ∧ route_after_retrieval none documents ≠ "failed"
      ∧ ragGraphCondEdgeAfterRetrieval (route_after_retrieval none documents) =
          some "generate_answer" := by
  intro documents h
  subst h
  refine ⟨rfl, by decide, by decide, rfl⟩

/-- C4 witness: the empty retrieval result. -/
theorem zero_documents_route_directly_to_generation_witness :
    route_after_retrieval none [] = "generate_answer" :=
  (zero_documents_route_directly_to_generation [] rfl).1

/-! ### C1: self-loops in the processed triples. -/

/-- C1 counterexample: `process_graph_data` does not drop self-loop triples.
The raw triple `("a", "A", "r")` normalizes both endpoints to `"A"`, and the
resulting self-loop `("A", "A", "r")` survives resolution and deduplication
into the final output. -/
theorem processed_triples_self_loop_counterexample :
    ¬ (∀ t ∈ processGraphData (fun _ _ => 0)
          [⟨codes "a", codes "A", codes "r"⟩],
        t.source ≠ t.target) := by
  decide

/-! ### C8: zero-node layout output. -/

/-- C8 counterexample: the layout engine can return zero nodes.  A non-empty
triple list whose endpoint labels strip to the empty string produces no
nodes at all in `generate_react_flow_data` — not even the fallback node. -/
theorem react_flow_zero_nodes_counterexample :
    ¬ (1 ≤ (generateReactFlowData
        [⟨codes " ", codes " ", codes "rel"⟩]).nodes.length) := by
  decide

lemma layoutRFNodes_length :
    ∀ (l : List (List Nat × Nat)) (i : Nat) (counts : Nat → Nat),
      (layoutRFNodes l i counts).length = l.length := by
  intro l
  induction l with
  | nil => intro i counts; rfl
  | cons p rest ih =>
    intro i counts
    cases p with
    | mk label level => simp [layoutRFNodes, ih]

lemma insertByLevel_length (x : List Nat × Nat) :
    ∀ l : List (List Nat × Nat), (insertByLevel x l).length = l.length + 1 := by
  intro l
  induction l with
  | nil => rfl
  | cons y ys ih =>
    unfold insertByLevel
    split
    · simp [ih]
    · simp

lemma sortByLevel_length :
    ∀ l : List (List Nat × Nat), (sortByLevel l).length = l.length := by
  intro l
  induction l with
  | nil => rfl
  | cons x xs ih => simp [sortByLevel, insertByLevel_length, ih]

lemma collectRFLabels_go_mono :
    ∀ (ts : List Triple) (acc : List (List Nat × Nat)),
      acc.length ≤ (List.foldl
        (fun acc t =>
          let s := stripWs t.source
          let u := stripWs t.target
          let acc1 :=
            if s ≠ [] ∧ (acc.map Prod.fst).contains s = false then acc ++ [(s, 4)]
            else acc
          if u ≠ [] ∧ (acc1.map Prod.fst).contains u = false then acc1 ++ [(u, 4)]
          else acc1)
        acc ts).length := by
  intro ts
  induction ts with
  | nil => intro acc; simp
  | cons t rest ih =>
    intro acc
    refine le_trans ?_ (ih _)
    dsimp only
    split
    · split
      · simp
      · simp
    · split
      · simp
      · simp

lemma collectRFLabels_nonempty :
    ∀ (ts : List Triple) (acc : List (List Nat × Nat)) (t : Triple),
      t ∈ ts → (stripWs t.source ≠ [] ∨ stripWs t.target ≠ []) →
      1 ≤ (List.foldl
        (fun acc t =>
          let s := stripWs t.source
          let u := stripWs t.target
          let acc1 :=
            if s ≠ [] ∧ (acc.map Prod.fst).contains s = false then acc ++ [(s, 4)]
            else acc
          if u ≠ [] ∧ (acc1.map Prod.fst).contains u = false then acc1 ++ [(u, 4)]
          else acc1)
        acc ts).length := by
  intro ts
  induction ts with
  | nil => intro acc t hmem; exact absurd hmem (List.not_mem_nil t)
  | cons hd rest ih =>
    intro acc t hmem hne
    rcases List.mem_cons.mp hmem with heq | hmem2
    · subst heq
      rw [List.foldl_cons]
      refine le_trans ?_ (collectRFLabels_go_mono rest _)
      -- the accumulator after processing `t` is non-empty
      dsimp only
      set acc1 : List (List Nat × Nat) :=
        if stripWs t.source ≠ [] ∧
            (acc.map Prod.fst).contains (stripWs t.source) = false then
          acc ++ [(stripWs t.source, 4)]
        else acc with hacc1
      rcases hne with hs | ht
      · have h1 : 1 ≤ acc1.length := by
          rw [hacc1]
          split
          · simp
          · rename_i hc
            have hc2 : (acc.map Prod.fst).contains (stripWs t.source) = true := by
              rcases Bool.eq_false_or_eq_true
                ((acc.map Prod.fst).contains (stripWs t.source)) with h | h
              · exact h
              · exact absurd ⟨hs, h⟩ hc
            have hacc : acc ≠ [] := by
              intro h0
              subst h0
              simp at hc2
            exact List.length_pos.mpr hacc
        split
        · simp
        · exact h1
      · split
        · simp
        · rename_i hc
          have hc2 : (acc1.map Prod.fst).contains (stripWs t.target) = true := by
            rcases Bool.eq_false_or_eq_true
              ((acc1.map Prod.fst).contains (stripWs t.target)) with h | h
            · exact h
            · exact absurd ⟨ht, h⟩ hc
          have hne1 : acc1 ≠ [] := by
            intro h0
            rw [h0] at hc2
            simp at hc2
          exact List.length_pos.mpr hne1
    · rw [List.foldl_cons]
      exact ih _ t hmem2 hne

/-- C8 (amended): the empty-triples branch of `generate_react_flow_data`
returns exactly the single `empty-node` (one node, not the two-node
fallback); the two-node `root → content` fallback graph is the one produced
by `_create_fallback_react_flow` on the mind-map generation path; and the
triple path returns at least one node whenever some triple has a non-blank
endpoint label. -/
theorem react_flow_fallback_shapes :
    (generateReactFlowData []).nodes = [emptyNodeRF]
    ∧ (generateReactFlowData []).edges = []
    ∧ createFallbackReactFlow.nodes.length = 2
    ∧ createFallbackReactFlow.edges.map (fun e => (e.source, e.target)) =
        [("fallback-document", "fallback-content")]
    ∧ (∀ ts : List Triple,
        (∃ t ∈ ts, stripWs t.source ≠ [] ∨ stripWs t.target ≠ []) →
        1 ≤ (generateReactFlowData ts).nodes.length) := by
  refine ⟨rfl, rfl, rfl, rfl, ?_⟩
  intro ts h
  obtain ⟨t, hmem, hne⟩ := h
  have hts : ts ≠ [] := by
    intro h0
    subst h0
    exact absurd hmem (List.not_mem_nil t)
  unfold generateReactFlowData
  rw [if_neg hts]
  dsimp only
  rw [layoutRFNodes_length, sortByLevel_length]
  exact collectRFLabels_nonempty ts [] t hmem hne

/-- C8 witness: a triple with non-blank endpoints yields at least one node. -/
theorem react_flow_fallback_shapes_witness :
    1 ≤ (generateReactFlowData
        [⟨codes "A", codes "B", codes "r"⟩]).nodes.length :=
  react_flow_fallback_shapes.2.2.2.2
    [⟨codes "A", codes "B", codes "r"⟩]
    ⟨⟨codes "A", codes "B", codes "r"⟩, by decide, Or.inl (by decide)⟩

lemma buildRFEdges_no_self_loop :
    ∀ (ts : List Triple) (lk : List Nat → Option String) (counter : Nat)
      (e : RFEdge), e ∈ buildRFEdges lk ts counter → e.source ≠ e.target := by
  intro ts
  induction ts with
  | nil => intro lk counter e hmem; exact absurd hmem (List.not_mem_nil e)
  | cons t rest ih =>
    intro lk counter e hmem
    unfold buildRFEdges at hmem
    dsimp only at hmem
    split at hmem
    · rename_i hguard
      rcases List.mem_cons.mp hmem with heq | hmem2
      · obtain ⟨hs, ht, hne⟩ := hguard
        subst heq
        cases hsid : lk (stripWs t.source) with
        | none => rw [hsid] at hs; exact absurd hs (by decide)
        | some s =>
          cases htid : lk (stripWs t.target) with
          | none => rw [htid] at ht; exact absurd ht (by decide)
          | some u =>
            rw [hsid, htid] at hne
            simp only [hsid, htid, Option.getD_some]
            intro hcontra
            exact hne (by rw [hcontra])
      · exact ih _ _ e hmem2
    · exact ih _ _ e hmem

/-- C1 (amended): self-loop triples can survive `process_graph_data`
(see the counterexample), and the no-self-loop guarantee holds at edge
generation: every edge emitted by `generate_react_flow_data` connects two
distinct node ids. -/
theorem react_flow_edges_never_self_loops :
    ∀ (triples : List Triple) (e : RFEdge),
      e ∈ (generateReactFlowData triples).edges → e.source ≠ e.target := by
  intro triples e hmem
  unfold generateReactFlowData at hmem
  split at hmem
  · simp at hmem
  · exact buildRFEdges_no_self_loop triples _ 0 e hmem

/-- C1 witness: the edge generated for a concrete two-node triple has
distinct endpoints. -/
theorem react_flow_edges_never_self_loops_witness :
    (⟨"edge-0", "node-0", "node-1", some (codes "x")⟩ : RFEdge).source ≠
      (⟨"edge-0", "node-0", "node-1", some (codes "x")⟩ : RFEdge).target :=
  react_flow_edges_never_self_loops
    [⟨codes "A", codes "B", codes "x"⟩]
    ⟨"edge-0", "node-0", "node-1", some (codes "x")⟩
    (by decide)

/-! ### C9: subtree centering in the tree layout. -/

lemma subtreeWidth_pos : ∀ n : HNode, 1 ≤ subtreeWidth n := by
  intro n
  cases n with
  | mk t cs =>
    unfold subtreeWidth
    split
    · exact le_refl 1
    · exact le_max_left 1 _

lemma subtreeWidthList_pos :
    ∀ cs : List HNode, cs ≠ [] → 1 ≤ subtreeWidthList cs := by
  intro cs h
  cases cs with
  | nil => exact absurd rfl h
  | cons c rest =>
    unfold subtreeWidthList
    have := subtreeWidth_pos c
    omega

lemma positionNodes_cons_blank (title : List Nat) (cs rest : List HNode)
    (level : Nat) (cx : Int) (ht : stripWs title = []) :
    positionNodesHorizontally (HNode.mk title cs :: rest) level cx
      = positionNodesHorizontally rest level cx := by
  conv_lhs => unfold positionNodesHorizontally
  rw [if_pos ht]

lemma positionNodes_cons_leaf (title : List Nat) (cs rest : List HNode)
    (level : Nat) (cx : Int) (ht : stripWs title ≠ [])
    (hcs : cs.isEmpty = true) :
    positionNodesHorizontally (HNode.mk title cs :: rest) level cx
      = (⟨stripWs title, level, cx, 50 + 150 * (level : Int)⟩ ::
          (positionNodesHorizontally rest level
            (cx + (subtreeWidth (HNode.mk title cs) : Int) * 250)).1,
         (positionNodesHorizontally rest level
            (cx + (subtreeWidth (HNode.mk title cs) : Int) * 250)).2) := by
  conv_lhs => unfold positionNodesHorizontally
  rw [if_neg ht]
  simp only [hcs, if_true, List.nil_append]

lemma positionNodes_cons_internal (title : List Nat) (cs rest : List HNode)
    (level : Nat) (cx : Int) (ht : stripWs title ≠ [])
    (hcs : cs.isEmpty = false) :
    positionNodesHorizontally (HNode.mk title cs :: rest) level cx
      = (⟨stripWs title, level,
            max (cx + Int.fdiv ((subtreeWidthList cs : Int) * 250 - 250) 2) cx,
            50 + 150 * (level : Int)⟩ ::
          ((positionNodesHorizontally cs (level + 1) cx).1
            ++ (positionNodesHorizontally rest level
                  (cx + (subtreeWidth (HNode.mk title cs) : Int) * 250)).1),
         (positionNodesHorizontally rest level
            (cx + (subtreeWidth (HNode.mk title cs) : Int) * 250)).2) := by
  conv_lhs => unfold positionNodesHorizontally
  rw [if_neg ht]
  simp only [hcs, Bool.false_eq_true, if_false]

/-- C9: a node with children is centered over the pixel span of its
children.  Its X coordinate is exactly
`current_x + (children_pixel_width - NODE_WIDTH) // 2` — the
`max(..., current_x)` clamp never fires because the children span at least
one node width — which places it within one pixel below the children-span
midpoint minus half a node width; and for the following sibling `current_x`
advances by `subtree_width * NODE_WIDTH` (by zero for a skipped blank-title
node). -/
theorem layout_subtree_centering :
    (∀ (title : List Nat) (cs rest : List HNode) (level : Nat) (cx : Int),
       stripWs title ≠ [] → cs ≠ [] →
       ∃ (first : LNode) (others : List LNode),
         (positionNodesHorizontally (HNode.mk title cs :: rest) level cx).1
           = first :: others
         ∧ first.x = cx + Int.fdiv ((subtreeWidthList cs : Int) * 250 - 250) 2
         ∧ 2 * (first.x - cx) ≤ (subtreeWidthList cs : Int) * 250 - 250
         ∧ (subtreeWidthList cs : Int) * 250 - 250 < 2 * (first.x - cx) + 2)
    ∧ (∀ (n : HNode) (rest : List HNode) (level : Nat) (cx : Int),
        (positionNodesHorizontally (n :: rest) level cx).1
          = (positionNodesHorizontally [n] level cx).1
            ++ (positionNodesHorizontally rest level
                  (cx + (if stripWs n.title = [] then 0
                         else (subtreeWidth n : Int) * 250))).1) := by
  constructor
  · intro title cs rest level cx htitle hcs
    have hw : 1 ≤ subtreeWidthList cs := subtreeWidthList_pos cs hcs
    have hw' : (1 : Int) ≤ (subtreeWidthList cs : Int) := by exact_mod_cast hw
    have hd : (0 : Int) ≤ (subtreeWidthList cs : Int) * 250 - 250 := by
      nlinarith
    have hfd : Int.fdiv ((subtreeWidthList cs : Int) * 250 - 250) 2
        = ((subtreeWidthList cs : Int) * 250 - 250) / 2 :=
      Int.fdiv_eq_ediv _ (by norm_num)
    have hcs' : cs.isEmpty = false := by
      cases cs with
      | nil => exact absurd rfl hcs
      | cons a b => rfl
    rw [positionNodes_cons_internal title cs rest level cx htitle hcs']
    have hmax : max (cx + Int.fdiv ((subtreeWidthList cs : Int) * 250 - 250) 2) cx
        = cx + Int.fdiv ((subtreeWidthList cs : Int) * 250 - 250) 2 := by
      rw [hfd]
      exact max_eq_left (by omega)
    refine ⟨_, _, rfl, ?_, ?_, ?_⟩
    · exact hmax
    · show 2 * (max (cx + Int.fdiv ((subtreeWidthList cs : Int) * 250 - 250) 2) cx
          - cx) ≤ _
      rw [hmax, hfd]
      omega
    · show _ < 2 * (max (cx + Int.fdiv ((subtreeWidthList cs : Int) * 250 - 250) 2)
          cx - cx) + 2
      rw [hmax, hfd]
      omega
  · intro n rest level cx
    cases n with
    | mk title cs =>
      by_cases htitle : stripWs title = []
      · rw [positionNodes_cons_blank title cs rest level cx htitle,
            positionNodes_cons_blank title cs [] level cx htitle]
        simp [HNode.title, htitle, positionNodesHorizontally]
      · rcases hcs : cs.isEmpty with hfalse | htrue
        · rw [positionNodes_cons_internal title cs rest level cx htitle hcs,
              positionNodes_cons_internal title cs [] level cx htitle hcs]
          simp only [HNode.title, if_neg htitle]
          simp [positionNodesHorizontally]
        · rw [positionNodes_cons_leaf title cs rest level cx htitle hcs,
              positionNodes_cons_leaf title cs [] level cx htitle hcs]
          simp only [HNode.title, if_neg htitle]
          simp [positionNodesHorizontally]

/-- C9 witness: a root with two children, positioned from `current_x = 50`,
sits at `50 + (2·250 − 250) // 2 = 175`. -/
theorem layout_subtree_centering_witness :
    ∃ (first : LNode) (others : List LNode),
      (positionNodesHorizontally
          [HNode.mk (codes "Root")
            [HNode.mk (codes "A") [], HNode.mk (codes "B") []]] 0 50).1
        = first :: others
      ∧ first.x = 50 + Int.fdiv
          ((subtreeWidthList
              [HNode.mk (codes "A") [], HNode.mk (codes "B") []] : Int)
            * 250 - 250) 2
      ∧ 2 * (first.x - 50) ≤ (subtreeWidthList
          [HNode.mk (codes "A") [], HNode.mk (codes "B") []] : Int) * 250 - 250
      ∧ (subtreeWidthList
          [HNode.mk (codes "A") [], HNode.mk (codes "B") []] : Int) * 250 - 250
          < 2 * (first.x - 50) + 2 :=
  layout_subtree_centering.1 (codes "Root")
    [HNode.mk (codes "A") [], HNode.mk (codes "B") []] [] 0 50
    (by decide) (by simp)

/-! ### C6: termination of the document-processing workflow. -/

lemma dpRunGood_cons (node : String)
    (r : DPState × List (String × Option String)) (h : DPRunGood r) :
    DPRunGood (r.1, (node, (none : Option String)) :: r.2) := by
  refine ⟨h.1, ?_⟩
  intro p hp
  rcases List.mem_cons.mp hp with heq | hmem
  · rw [heq]
  · exact h.2 p hmem

lemma dpRunGood_terminal (r : DPState × List (String × Option String))
    (s : DPState) (node : String) (h1 : r = (s, [(node, none)]))
    (h2 : s.stage = "completed" ∨ s.stage = "failed") : DPRunGood r := by
  subst h1
  refine ⟨h2, ?_⟩
  intro p hp
  rcases List.mem_cons.mp hp with heq | hmem
  · rw [heq]
  · exact absurd hmem (List.not_mem_nil p)

lemma dp_run_finalize : ∀ o : List (Option String),
    DPRunGood (runDocumentProcessing 1 "finalize" ⟨"chunks_embedded", none⟩ o) := by
  intro o
  cases o with
  | nil => exact dpRunGood_terminal _ _ "finalize" rfl (Or.inl rfl)
  | cons hd tl =>
    cases hd with
    | none => exact dpRunGood_terminal _ _ "finalize" rfl (Or.inl rfl)
    | some m => exact dpRunGood_terminal _ _ "finalize" rfl (Or.inr rfl)

lemma dp_run_embed : ∀ o : List (Option String),
    DPRunGood (runDocumentProcessing 2 "embed_and_store"
      ⟨"content_chunked", none⟩ o) := by
  intro o
  cases o with
  | nil => exact dpRunGood_cons "embed_and_store" _ (dp_run_finalize [])
  | cons hd tl =>
    cases hd with
    | none => exact dpRunGood_cons "embed_and_store" _ (dp_run_finalize tl)
    | some m => exact dpRunGood_terminal _ _ "embed_and_store" rfl (Or.inr rfl)

lemma dp_run_chunk : ∀ o : List (Option String),
    DPRunGood (runDocumentProcessing 3 "chunk_content"
      ⟨"mind_map_generated", none⟩ o) := by
  intro o
  cases o with
  | nil => exact dpRunGood_cons "chunk_content" _ (dp_run_embed [])
  | cons hd tl =>
    cases hd with
    | none => exact dpRunGood_cons "chunk_content" _ (dp_run_embed tl)
    | some m => exact dpRunGood_terminal _ _ "chunk_content" rfl (Or.inr rfl)

lemma dp_run_optimize : ∀ o : List (Option String),
    DPRunGood (runDocumentProcessing 4 "optimize_mind_map"
      ⟨"outline_extracted", none⟩ o) := by
  intro o
  cases o with
  | nil => exact dpRunGood_cons "optimize_mind_map" _ (dp_run_chunk [])
  | cons hd tl =>
    cases hd with
    | none => exact dpRunGood_cons "optimize_mind_map" _ (dp_run_chunk tl)
    | some m => exact dpRunGood_terminal _ _ "optimize_mind_map" rfl (Or.inr rfl)

lemma dp_run_outline : ∀ o : List (Option String),
    DPRunGood (runDocumentProcessing 5 "extract_outline"
      ⟨"content_extracted", none⟩ o) := by
  intro o
  cases o with
  | nil => exact dpRunGood_cons "extract_outline" _ (dp_run_optimize [])
  | cons hd tl =>
    cases hd with
    | none => exact dpRunGood_cons "extract_outline" _ (dp_run_optimize tl)
    | some m => exact dpRunGood_terminal _ _ "extract_outline" rfl (Or.inr rfl)

/-- C6: every run of the compiled document-processing graph, whatever the
per-node outcomes, ends in stage `completed` or `failed`; every node
function that runs receives an error-free state (no stage runs after an
error is set); and the router returns `failed` unconditionally whenever
`error_message` is set. -/
theorem document_processing_terminates :
    (∀ o : List (Option String),
       DPRunGood (runDocumentProcessing 6 "extract_content" dpInitialState o))
    ∧ (∀ s : DPState, s.error_message ≠ none →
        routeDocumentProcessing s = "failed") := by
  constructor
  · intro o
    cases o with
    | nil => exact dpRunGood_cons "extract_content" _ (dp_run_outline [])
    | cons hd tl =>
      cases hd with
      | none => exact dpRunGood_cons "extract_content" _ (dp_run_outline tl)
      | some m => exact dpRunGood_terminal _ _ "extract_content" rfl (Or.inr rfl)
  · intro s h
    cases hs : s.error_message with
    | none => exact absurd hs h
    | some m =>
      unfold routeDocumentProcessing
      rw [hs]

/-- C6 witness: a run whose second node fails ends in `failed`, and a state
with an error set routes to `failed`. -/
theorem document_processing_terminates_witness :
    ((runDocumentProcessing 6 "extract_content" dpInitialState
        [none, some "boom"]).1.stage = "completed"
     ∨ (runDocumentProcessing 6 "extract_content" dpInitialState
        [none, some "boom"]).1.stage = "failed")
    ∧ routeDocumentProcessing ⟨"content_extracted", some "boom"⟩ = "failed" :=
  ⟨(document_processing_terminates.1 [none, some "boom"]).1,
   document_processing_terminates.2 ⟨"content_extracted", some "boom"⟩
     (by decide)⟩

/-! ### C7: case-insensitive outline deduplication. -/

lemma cleanPairsAux_nodup :
    ∀ (lines : List (List Nat)) (seen : List (List Nat)),
      ((cleanPairsAux lines seen).map (fun p => pyLower p.2)).Nodup
      ∧ ∀ w ∈ (cleanPairsAux lines seen).map (fun p => pyLower p.2), w ∉ seen := by
  intro lines
  induction lines with
  | nil => intro seen; exact ⟨List.nodup_nil, by intro w hw; exact absurd hw (List.not_mem_nil w)⟩
  | cons line rest ih =>
    intro seen
    unfold cleanPairsAux
    cases hcl : cleanLine line with
    | none => exact ih seen
    | some p =>
      cases p with
      | mk level content =>
        dsimp only
        by_cases hseen : seen.contains (pyLower content)
        · rw [if_pos hseen]
          exact ih seen
        · rw [if_neg hseen]
          have hmem : pyLower content ∉ seen := by
            intro hm
            exact hseen (by simpa using hm)
          obtain ⟨hnd, hnotin⟩ := ih (pyLower content :: seen)
          constructor
          · rw [List.map_cons]
            refine List.nodup_cons.mpr ⟨?_, hnd⟩
            intro hcontra
            exact (hnotin _ hcontra) (List.mem_cons_self _ _)
          · intro w hw
            rw [List.map_cons] at hw
            rcases List.mem_cons.mp hw with heq | hmem2
            · rw [heq]; exact hmem
            · intro hws
              exact (hnotin w hmem2) (List.mem_cons_of_mem _ hws)

/-- C7: outline cleaning deduplicates case-insensitively — the lowered
cleaned contents of the lines kept by `_clean_outline_text` are pairwise
distinct for every input, only the first occurrence surviving — and on the
concrete outline `"Topic A\\ntopic a"` the cleaned text keeps only the first
line and the parsed hierarchy is the single node `Topic A` with no children
for the dropped duplicate. -/
theorem outline_case_insensitive_dedup :
    (∀ text : List Nat,
       ((cleanOutlinePairs text).map (fun p => pyLower p.2)).Nodup)
    ∧ cleanOutlineText (codes "Topic A" ++ 10 :: codes "topic a")
        = codes "Topic A"
    ∧ (parseOutlineToHierarchy
          (cleanOutlineText (codes "Topic A" ++ 10 :: codes "topic a"))
          (codes "doc")).label = codes "Topic A"
    ∧ (parseOutlineToHierarchy
          (cleanOutlineText (codes "Topic A" ++ 10 :: codes "topic a"))
          (codes "doc")).children.length = 0 := by
  refine ⟨?_, by decide, by decide, by decide⟩
  intro text
  exact (cleanPairsAux_nodup (splitOnNl text) []).1

/-! ### C10: idempotence of `normalize_label`. -/

lemma upper_lower_char (n : Nat) : pyUpperChar (pyLowerChar n) = pyUpperChar n := by
  unfold pyUpperChar pyLowerChar isAsciiLower isAsciiUpper
  split_ifs <;> simp_all <;> omega

lemma lower_upper_char (n : Nat) : pyLowerChar (pyUpperChar n) = pyLowerChar n := by
  unfold pyUpperChar pyLowerChar isAsciiLower isAsciiUpper
  split_ifs <;> simp_all <;> omega

lemma upper_upper_char (n : Nat) : pyUpperChar (pyUpperChar n) = pyUpperChar n := by
  unfold pyUpperChar isAsciiLower
  split_ifs <;> simp_all
  omega

lemma lower_lower_char (n : Nat) : pyLowerChar (pyLowerChar n) = pyLowerChar n := by
  unfold pyLowerChar isAsciiUpper
  split_ifs <;> simp_all
  omega

lemma space_upper_char (n : Nat) : pyIsSpace (pyUpperChar n) = pyIsSpace n := by
  unfold pyUpperChar
  split_ifs with h
  · have h' : 97 ≤ n ∧ n ≤ 122 := by simpa [isAsciiLower] using h
    have l1 : pyIsSpace (n - 32) = false := by simp [pyIsSpace]; omega
    have l2 : pyIsSpace n = false := by simp [pyIsSpace]; omega
    rw [l1, l2]
  · rfl

lemma space_lower_char (n : Nat) : pyIsSpace (pyLowerChar n) = pyIsSpace n := by
  unfold pyLowerChar
  split_ifs with h
  · have h' : 65 ≤ n ∧ n ≤ 90 := by simpa [isAsciiUpper] using h
    have l1 : pyIsSpace (n + 32) = false := by simp [pyIsSpace]; omega
    have l2 : pyIsSpace n = false := by simp [pyIsSpace]; omega
    rw [l1, l2]
  · rfl

lemma not_lower_upper_char (n : Nat) (h : isAsciiLower n = false) :
    pyUpperChar n = n := by
  unfold pyUpperChar
  rw [h]
  rfl

lemma upper_lower_word (w : List Nat) : pyUpper (pyLower w) = pyUpper w := by
  unfold pyUpper pyLower
  rw [List.map_map]
  exact List.map_congr_left fun a _ => upper_lower_char a

lemma upper_upper_word (w : List Nat) : pyUpper (pyUpper w) = pyUpper w := by
  unfold pyUpper
  rw [List.map_map]
  exact List.map_congr_left fun a _ => upper_upper_char a

lemma upper_of_isUpper (w : List Nat) (h : pyIsUpper w = true) :
    pyUpper w = w := by
  have hall : ∀ c ∈ w, isAsciiLower c = false := by
    intro c hc
    have h2 := (Bool.and_eq_true _ _ |>.mp h).2
    have := (List.all_eq_true.mp h2) c hc
    simpa using this
  unfold pyUpper
  have : ∀ c ∈ w, pyUpperChar c = id c := by
    intro c hc
    simpa using not_lower_upper_char c (hall c hc)
  rw [List.map_congr_left this, List.map_id]

lemma lower_cap_lower_word (w : List Nat) :
    pyLower (pyCapitalize (pyLower w)) = pyLower w := by
  cases w with
  | nil => rfl
  | cons c cs =>
    show pyLower (pyCapitalize (pyLowerChar c :: cs.map pyLowerChar)) = _
    unfold pyCapitalize pyLower
    simp only [List.map_cons, List.map_map]
    simp [Function.comp, lower_upper_char, lower_lower_char]

lemma upper_cap_lower_word (w : List Nat) :
    pyUpper (pyCapitalize (pyLower w)) = pyUpper w := by
  cases w with
  | nil => rfl
  | cons c cs =>
    show pyUpper (pyCapitalize (pyLowerChar c :: cs.map pyLowerChar)) = _
    unfold pyCapitalize pyUpper
    simp only [List.map_cons, List.map_map]
    simp [Function.comp, upper_upper_char, upper_lower_char, lower_lower_char]

lemma normalizeWord_idem (w : List Nat) :
    normalizeWord (normalizeWord w) = normalizeWord w := by
  cases hb : ((w.length ≤ 4 && pyIsUpper w) || acronymSet.contains (pyUpper w)) with
  | true =>
    have hw : normalizeWord w = pyUpper w := by
      unfold normalizeWord
      rw [hb]
      rfl
    rw [hw]
    rcases Bool.or_eq_true_iff.mp hb with hA | hB
    · have hup : pyUpper w = w :=
        upper_of_isUpper w (Bool.and_eq_true _ _ |>.mp hA).2
      rw [hup]
      rw [hw]
      exact hup
    · have hb2 : (((pyUpper w).length ≤ 4 && pyIsUpper (pyUpper w))
          || acronymSet.contains (pyUpper (pyUpper w))) = true := by
        rw [upper_upper_word, hB, Bool.or_true]
      unfold normalizeWord
      rw [hb2]
      simp only [if_true]
      exact upper_upper_word w
  | false =>
    have hw : normalizeWord w = pyCapitalize (pyLower w) := by
      unfold normalizeWord
      rw [hb]
      rfl
    rw [hw]
    have hB : acronymSet.contains (pyUpper w) = false :=
      (Bool.or_eq_false_iff.mp hb).2
    have hcontains :
        acronymSet.contains (pyUpper (pyCapitalize (pyLower w))) = false := by
      rw [upper_cap_lower_word]
      exact hB
    cases hlenup : ((pyCapitalize (pyLower w)).length ≤ 4
        && pyIsUpper (pyCapitalize (pyLower w))) with
    | true =>
      have hcond : (((pyCapitalize (pyLower w)).length ≤ 4
          && pyIsUpper (pyCapitalize (pyLower w)))
          || acronymSet.contains (pyUpper (pyCapitalize (pyLower w)))) = true := by
        rw [hlenup, Bool.true_or]
      unfold normalizeWord
      rw [hcond]
      simp only [if_true]
      exact upper_of_isUpper _ (Bool.and_eq_true _ _ |>.mp hlenup).2
    | false =>
      have hcond : (((pyCapitalize (pyLower w)).length ≤ 4
          && pyIsUpper (pyCapitalize (pyLower w)))
          || acronymSet.contains (pyUpper (pyCapitalize (pyLower w)))) = false := by
        rw [hlenup, hcontains, Bool.or_false]
      unfold normalizeWord
      rw [hcond]
      simp only [Bool.false_eq_true, if_false]
      rw [lower_cap_lower_word]

lemma foldr_splitWs_wsfree :
    ∀ l : List Nat, ∀ w ∈ l.foldr splitWsStep [], ∀ c ∈ w,
      pyIsSpace c = false := by
  intro l
  induction l with
  | nil => intro w hw; exact absurd hw (List.not_mem_nil w)
  | cons a as ih =>
    intro w hw c hc
    rw [List.foldr_cons] at hw
    cases ha : pyIsSpace a with
    | true =>
      rw [show splitWsStep a (as.foldr splitWsStep [])
          = [] :: as.foldr splitWsStep [] by
        unfold splitWsStep; rw [ha]; rfl] at hw
      rcases List.mem_cons.mp hw with heq | hmem
      · subst heq; exact absurd hc (List.not_mem_nil c)
      · exact ih w hmem c hc
    | false =>
      rcases hacc : as.foldr splitWsStep [] with _ | ⟨y, ys⟩
      · rw [hacc] at hw
        rw [show splitWsStep a [] = [[a]] by unfold splitWsStep; rw [ha]; rfl]
          at hw
        have hww : w = [a] := List.mem_singleton.mp hw
        subst hww
        rcases List.mem_singleton.mp hc with rfl
        exact ha
      · rw [hacc] at hw
        rw [show splitWsStep a (y :: ys) = (a :: y) :: ys by
          unfold splitWsStep; rw [ha]; rfl] at hw
        rcases List.mem_cons.mp hw with heq | hmem
        · subst heq
          rcases List.mem_cons.mp hc with rfl | hcy
          · exact ha
          · exact ih y (hacc ▸ List.mem_cons_self y ys) c hcy
        · exact ih w (hacc ▸ List.mem_cons_of_mem y hmem) c hc

lemma pySplitWs_good :
    ∀ l : List Nat, ∀ w ∈ pySplitWs l,
      w ≠ [] ∧ ∀ c ∈ w, pyIsSpace c = false := by
  intro l w hw
  unfold pySplitWs at hw
  have hmem := List.mem_filter.mp hw
  refine ⟨by simpa using hmem.2, ?_⟩
  exact foldr_splitWs_wsfree l w hmem.1

lemma foldr_splitWs_cons :
    ∀ (w : List Nat), (∀ c ∈ w, pyIsSpace c = false) →
      ∀ (y : List Nat) (ys : List (List Nat)),
        w.foldr splitWsStep (y :: ys) = (w ++ y) :: ys := by
  intro w
  induction w with
  | nil => intro _ y ys; rfl
  | cons c cs ih =>
    intro h y ys
    rw [List.foldr_cons, ih (fun d hd => h d (List.mem_cons_of_mem c hd)) y ys]
    rw [show splitWsStep c ((cs ++ y) :: ys) = (c :: (cs ++ y)) :: ys by
      unfold splitWsStep; rw [h c (List.mem_cons_self c cs)]; rfl]
    rfl

lemma foldr_splitWs_single :
    ∀ (w : List Nat), (∀ c ∈ w, pyIsSpace c = false) → w ≠ [] →
      w.foldr splitWsStep [] = [w] := by
  intro w
  induction w with
  | nil => intro _ h; exact absurd rfl h
  | cons c cs ih =>
    intro h _
    rw [List.foldr_cons]
    cases hcs : cs with
    | nil =>
      subst hcs
      rw [show ([] : List Nat).foldr splitWsStep [] = [] from rfl]
      rw [show splitWsStep c [] = [[c]] by
        unfold splitWsStep; rw [h c (List.mem_cons_self c [])]; rfl]
    | cons d ds =>
      rw [← hcs, ih (fun e he => h e (List.mem_cons_of_mem c he)) (by simp [hcs])]
      rw [show splitWsStep c [cs] = [c :: cs] by
        unfold splitWsStep; rw [h c (List.mem_cons_self c cs)]; rfl]

lemma split_join :
    ∀ ts : List (List Nat),
      (∀ w ∈ ts, w ≠ [] ∧ ∀ c ∈ w, pyIsSpace c = false) →
      pySplitWs (joinSpace ts) = ts := by
  intro ts
  induction ts with
  | nil => intro _; rfl
  | cons w ws ih =>
    intro h
    have hw := h w (List.mem_cons_self w ws)
    cases ws with
    | nil =>
      show pySplitWs (joinSpace [w]) = [w]
      unfold joinSpace pySplitWs
      rw [foldr_splitWs_single w hw.2 hw.1]
      simp [List.filter, hw.1]
    | cons w2 ws2 =>
      have hJ : joinSpace (w :: w2 :: ws2) = w ++ 32 :: joinSpace (w2 :: ws2) :=
        rfl
      unfold pySplitWs
      rw [hJ, List.foldr_append, List.foldr_cons]
      have h32 : splitWsStep 32 ((joinSpace (w2 :: ws2)).foldr splitWsStep [])
          = [] :: (joinSpace (w2 :: ws2)).foldr splitWsStep [] := by
        unfold splitWsStep
        rw [if_pos (by decide)]
      rw [h32, foldr_splitWs_cons w hw.2 [] _, List.append_nil]
      rw [List.filter_cons_of_pos (by simpa using hw.1)]
      have := ih (fun v hv => h v (List.mem_cons_of_mem w hv))
      unfold pySplitWs at this
      rw [this]

lemma dropWhile_eq_self_of_head :
    ∀ l : List Nat, (∀ c, l.head? = some c → pyIsSpace c = false) →
      l.dropWhile pyIsSpace = l := by
  intro l h
  cases l with
  | nil => rfl
  | cons a as =>
    rw [List.dropWhile_cons, if_neg (by simp [h a rfl])]

lemma joinSpace_ne_nil :
    ∀ (w : List Nat) (ws : List (List Nat)), w ≠ [] →
      joinSpace (w :: ws) ≠ [] := by
  intro w ws hw
  cases ws with
  | nil => exact hw
  | cons w2 ws2 =>
    show w ++ 32 :: joinSpace (w2 :: ws2) ≠ []
    simp

lemma joinSpace_head_not_space :
    ∀ ts : List (List Nat),
      (∀ w ∈ ts, w ≠ [] ∧ ∀ c ∈ w, pyIsSpace c = false) →
      ∀ c, (joinSpace ts).head? = some c → pyIsSpace c = false := by
  intro ts h c hc
  cases ts with
  | nil => exact absurd hc (by simp [joinSpace])
  | cons w ws =>
    have hw := h w (List.mem_cons_self w ws)
    cases hww : w with
    | nil => exact absurd hww hw.1
    | cons a as =>
      have hhead : (joinSpace (w :: ws)).head? = some a := by
        cases ws with
        | nil => rw [show joinSpace [w] = w from rfl, hww]; rfl
        | cons w2 ws2 =>
          rw [show joinSpace (w :: w2 :: ws2) = w ++ 32 :: joinSpace (w2 :: ws2)
            from rfl, hww]
          rfl
      rw [hhead] at hc
      have hac : a = c := by injection hc
      subst hac
      exact hw.2 a (by rw [hww]; exact List.mem_cons_self a as)

lemma joinSpace_reverse_head_not_space :
    ∀ ts : List (List Nat),
      (∀ w ∈ ts, w ≠ [] ∧ ∀ c ∈ w, pyIsSpace c = false) →
      ∀ c, (joinSpace ts).reverse.head? = some c → pyIsSpace c = false := by
  intro ts
  induction ts with
  | nil => intro _ c hc; exact absurd hc (by simp [joinSpace])
  | cons w ws ih =>
    intro h c hc
    have hw := h w (List.mem_cons_self w ws)
    cases ws with
    | nil =>
      rw [show joinSpace [w] = w from rfl] at hc
      have hcmem : c ∈ w.reverse := List.mem_of_mem_head? hc
      exact hw.2 c (List.mem_reverse.mp hcmem)
    | cons w2 ws2 =>
      rw [show joinSpace (w :: w2 :: ws2) = w ++ 32 :: joinSpace (w2 :: ws2)
        from rfl] at hc
      rw [List.reverse_append, List.reverse_cons] at hc
      have hJ : joinSpace (w2 :: ws2) ≠ [] :=
        joinSpace_ne_nil w2 ws2 (h w2 (by simp)).1
      have hJr : (joinSpace (w2 :: ws2)).reverse ≠ [] := by
        simpa using hJ
      cases hrev : (joinSpace (w2 :: ws2)).reverse with
      | nil => exact absurd hrev hJr
      | cons a t =>
        rw [hrev] at hc
        simp only [List.cons_append, List.head?_cons] at hc
        have hac : a = c := by injection hc
        subst hac
        exact ih (fun v hv => h v (List.mem_cons_of_mem w hv)) a
          (by rw [hrev]; rfl)

lemma stripWs_joinSpace :
    ∀ ts : List (List Nat),
      (∀ w ∈ ts, w ≠ [] ∧ ∀ c ∈ w, pyIsSpace c = false) →
      stripWs (joinSpace ts) = joinSpace ts := by
  intro ts h
  unfold stripWs
  rw [dropWhile_eq_self_of_head _ (joinSpace_head_not_space ts h),
      dropWhile_eq_self_of_head _ (joinSpace_reverse_head_not_space ts h),
      List.reverse_reverse]

lemma normalizeWord_good (w : List Nat) (hne : w ≠ [])
    (hfree : ∀ c ∈ w, pyIsSpace c = false) :
    normalizeWord w ≠ [] ∧ ∀ c ∈ normalizeWord w, pyIsSpace c = false := by
  unfold normalizeWord
  split_ifs with hb
  · constructor
    · simpa [pyUpper] using hne
    · intro c hc
      obtain ⟨d, hd, hdc⟩ := List.mem_map.mp hc
      subst hdc
      rw [space_upper_char]
      exact hfree d hd
  · cases w with
    | nil => exact absurd rfl hne
    | cons a as =>
      constructor
      · show pyUpperChar (pyLowerChar a) :: _ ≠ []
        simp [pyCapitalize, pyLower]
      · intro c hc
        simp only [pyCapitalize, pyLower, List.map_cons, List.map_map,
          List.mem_cons, List.mem_map, Function.comp] at hc
        rcases hc with rfl | ⟨d, hd, hdc⟩
        · rw [space_upper_char, space_lower_char]
          exact hfree a (List.mem_cons_self a as)
        · subst hdc
          rw [space_lower_char, space_lower_char]
          exact hfree d (List.mem_cons_of_mem a hd)

/-- C10: `normalize_label` is idempotent — applying it twice yields the same
string as applying it once, for every code-point string — and its output is
already whitespace-stripped (tokens are non-empty, whitespace-free words
joined by single spaces, so every canonical label stored in the merge map is
a fixed point of normalization). -/
theorem normalize_label_idempotent :
    ∀ label : List Nat,
      normalize_label (normalize_label label) = normalize_label label
      ∧ stripWs (normalize_label label) = normalize_label label := by
  intro label
  by_cases hl : label = []
  · subst hl
    exact ⟨rfl, rfl⟩
  · have hts0 := pySplitWs_good (stripWs label)
    have hsplit : pySplitWs (joinSpace (pySplitWs (stripWs label)))
        = pySplitWs (stripWs label) := split_join _ hts0
    have hform : normalize_label label
        = joinSpace ((pySplitWs (stripWs label)).map normalizeWord) := by
      unfold normalize_label
      rw [if_neg hl]
      dsimp only
      rw [hsplit]
    have hgood1 : ∀ w ∈ (pySplitWs (stripWs label)).map normalizeWord,
        w ≠ [] ∧ ∀ c ∈ w, pyIsSpace c = false := by
      intro w hw
      obtain ⟨v, hv, hvw⟩ := List.mem_map.mp hw
      subst hvw
      exact normalizeWord_good v (hts0 v hv).1 (hts0 v hv).2
    have hstrip := stripWs_joinSpace _ hgood1
    refine ⟨?_, by rw [hform]; exact hstrip⟩
    rw [hform]
    by_cases hout : joinSpace ((pySplitWs (stripWs label)).map normalizeWord) = []
    · rw [hout]
      rfl
    · unfold normalize_label
      rw [if_neg hout]
      dsimp only
      rw [hstrip, split_join _ hgood1, split_join _ hgood1]
      rw [List.map_map]
      congr 1
      exact List.map_congr_left fun v _ => normalizeWord_idem v

/-! ### C2 and C3: the greedy similarity merge. -/

lemma nthLabel_mem (labels : List (List Nat)) {k : Nat} (h : k < labels.length) :
    nthLabel labels k ∈ labels := by
  unfold nthLabel
  rw [List.getD_eq_getElem labels [] h]
  exact List.getElem_mem h

lemma nthLabel_inj (labels : List (List Nat)) (hnd : labels.Nodup) {a b : Nat}
    (ha : a < labels.length) (hb : b < labels.length)
    (h : nthLabel labels a = nthLabel labels b) : a = b := by
  unfold nthLabel at h
  rw [List.getD_eq_getElem labels [] ha, List.getD_eq_getElem labels [] hb] at h
  exact hnd.getElem_inj_iff.mp h

lemma MapSound_mono (labels : List (List Nat)) (sim : Nat → Nat → ℚ)
    {bound bound' : Nat} (h : bound ≤ bound') (m : List Nat → List Nat)
    (hS : MapSound labels sim bound m) : MapSound labels sim bound' m := by
  intro x hx
  obtain ⟨a, b, h1, h2, h3, h4, h5, h6, h7⟩ := hS x hx
  exact ⟨a, b, h1, h2, le_trans h3 h, h4, h5, h6, h7⟩

lemma mergeStep_inv (labels : List (List Nat)) (sim : Nat → Nat → ℚ)
    (hnd : labels.Nodup) (i j : Nat) (hij : i < j) (hjn : j < labels.length)
    (m : List Nat → List Nat)
    (hS : MapSound labels sim i m)
    (hC : MapComplete labels sim i j m)
    (hO : MapOutside labels m)
    (hI : m (nthLabel labels i) = nthLabel labels i) :
    MapSound labels sim i (mergeStep labels sim i j m)
    ∧ MapComplete labels sim i (j + 1) (mergeStep labels sim i j m)
    ∧ MapOutside labels (mergeStep labels sim i j m)
    ∧ (mergeStep labels sim i j m) (nthLabel labels i) = nthLabel labels i := by
  have hin : i < labels.length := lt_trans hij hjn
  unfold mergeStep
  split_ifs with h1 h2
  · -- labels[j] is already redirected: the map is unchanged
    refine ⟨hS, ?_, hO, hI⟩
    intro a b hab hbn hsim hscope
    by_cases hold : a < i ∨ (a = i ∧ b < j)
    · exact hC a b hab hbn hsim hold
    · have hai : a = i ∧ b = j := by
        rcases hscope with h | ⟨ha, hb⟩
        · exact absurd (Or.inl h) hold
        · refine ⟨ha, ?_⟩
          by_cases hbj : b < j
          · exact absurd (Or.inr ⟨ha, hbj⟩) hold
          · omega
      right
      rw [hai.2]
      exact h1
  · -- merge: labels[j] is redirected to labels[i]
    have hm_j : m (nthLabel labels j) = nthLabel labels j := not_not.mp h1
    have hne_ij : nthLabel labels i ≠ nthLabel labels j := by
      intro he
      exact absurd (nthLabel_inj labels hnd hin hjn he) (Nat.ne_of_lt hij)
    have hup_j : updMap m (nthLabel labels j) (nthLabel labels i)
        (nthLabel labels j) = nthLabel labels i := by
      unfold updMap
      rw [if_pos rfl]
    have hup_ne : ∀ x, x ≠ nthLabel labels j →
        updMap m (nthLabel labels j) (nthLabel labels i) x = m x := by
      intro x hx
      unfold updMap
      rw [if_neg hx]
    have hI' : updMap m (nthLabel labels j) (nthLabel labels i)
        (nthLabel labels i) = nthLabel labels i := by
      rw [hup_ne _ hne_ij]
      exact hI
    refine ⟨?_, ?_, ?_, hI'⟩
    · -- soundness
      intro x hx
      by_cases hxj : x = nthLabel labels j
      · subst hxj
        exact ⟨i, j, hij, hjn, le_refl i, rfl, hup_j, h2, hI'⟩
      · rw [hup_ne x hxj] at hx ⊢
        obtain ⟨a, b, hab, hbn, hbound, hxb, hxa, hsima, hcana⟩ := hS x hx
        have hanej : nthLabel labels a ≠ nthLabel labels j := by
          intro he
          have := nthLabel_inj labels hnd (lt_trans hab hbn) hjn he
          omega
        refine ⟨a, b, hab, hbn, hbound, hxb, hxa, hsima, ?_⟩
        rw [hup_ne _ hanej]
        exact hcana
    · -- completeness
      intro a b hab hbn hsim hscope
      by_cases hold : a < i ∨ (a = i ∧ b < j)
      · rcases hC a b hab hbn hsim hold with hone | htwo
        · have hanej : nthLabel labels a ≠ nthLabel labels j := by
            intro he
            apply hone
            rw [he]
            exact hm_j
          left
          rw [hup_ne _ hanej]
          exact hone
        · have hbnej : nthLabel labels b ≠ nthLabel labels j := by
            intro he
            apply htwo
            rw [he]
            exact hm_j
          right
          rw [hup_ne _ hbnej]
          exact htwo
      · have hai : a = i ∧ b = j := by
          rcases hscope with h | ⟨ha, hb⟩
          · exact absurd (Or.inl h) hold
          · refine ⟨ha, ?_⟩
            by_cases hbj : b < j
            · exact absurd (Or.inr ⟨ha, hbj⟩) hold
            · omega
        right
        rw [hai.2, hup_j]
        exact hne_ij
    · -- identity outside the label set
      intro x hx
      have hxj : x ≠ nthLabel labels j := by
        intro he
        exact hx (he ▸ nthLabel_mem labels hjn)
      rw [hup_ne _ hxj]
      exact hO x hx
  · -- similarity below threshold: the map is unchanged
    refine ⟨hS, ?_, hO, hI⟩
    intro a b hab hbn hsim hscope
    by_cases hold : a < i ∨ (a = i ∧ b < j)
    · exact hC a b hab hbn hsim hold
    · have hai : a = i ∧ b = j := by
        rcases hscope with h | ⟨ha, hb⟩
        · exact absurd (Or.inl h) hold
        · refine ⟨ha, ?_⟩
          by_cases hbj : b < j
          · exact absurd (Or.inr ⟨ha, hbj⟩) hold
          · omega
      exact absurd (hai.1 ▸ hai.2 ▸ hsim) h2

lemma innerFrom_inv (labels : List (List Nat)) (sim : Nat → Nat → ℚ)
    (hnd : labels.Nodup) (i : Nat) :
    ∀ (k j : Nat) (m : List Nat → List Nat), labels.length - j = k → i < j →
      MapSound labels sim i m → MapComplete labels sim i j m →
      MapOutside labels m → m (nthLabel labels i) = nthLabel labels i →
      MapSound labels sim i (innerFrom labels sim i j m)
      ∧ MapComplete labels sim i labels.length (innerFrom labels sim i j m)
      ∧ MapOutside labels (innerFrom labels sim i j m)
      ∧ (innerFrom labels sim i j m) (nthLabel labels i)
          = nthLabel labels i := by
  intro k
  induction k with
  | zero =>
    intro j m hk hij hS hC hO hI
    have hjn : ¬ (j < labels.length) := by omega
    unfold innerFrom
    rw [if_neg hjn]
    refine ⟨hS, ?_, hO, hI⟩
    intro a b hab hbn hsim hscope
    refine hC a b hab hbn hsim ?_
    rcases hscope with h | ⟨ha, hb⟩
    · exact Or.inl h
    · exact Or.inr ⟨ha, by omega⟩
  | succ k ih =>
    intro j m hk hij hS hC hO hI
    have hjn : j < labels.length := by omega
    unfold innerFrom
    rw [if_pos hjn]
    obtain ⟨hS', hC', hO', hI'⟩ :=
      mergeStep_inv labels sim hnd i j hij hjn m hS hC hO hI
    exact ih (j + 1) _ (by omega) (by omega) hS' hC' hO' hI'

lemma outerFrom_inv (labels : List (List Nat)) (sim : Nat → Nat → ℚ)
    (hnd : labels.Nodup) :
    ∀ (k i : Nat) (m : List Nat → List Nat), labels.length - i = k →
      MapSound labels sim i m → MapComplete labels sim i (i + 1) m →
      MapOutside labels m →
      (∀ x, outerFrom labels sim i m x ≠ x →
        ∃ a b, a < b ∧ b < labels.length ∧ x = nthLabel labels b ∧
          outerFrom labels sim i m x = nthLabel labels a ∧
          similarity_threshold < sim a b ∧
          outerFrom labels sim i m (nthLabel labels a) = nthLabel labels a)
      ∧ (∀ a b, a < b → b < labels.length → similarity_threshold < sim a b →
          outerFrom labels sim i m (nthLabel labels a) ≠ nthLabel labels a
          ∨ outerFrom labels sim i m (nthLabel labels b) ≠ nthLabel labels b)
      ∧ MapOutside labels (outerFrom labels sim i m) := by
  intro k
  induction k with
  | zero =>
    intro i m hk hS hC hO
    have hin : ¬ (i < labels.length) := by omega
    unfold outerFrom
    rw [if_neg hin]
    refine ⟨?_, ?_, hO⟩
    · intro x hx
      obtain ⟨a, b, h1, h2, _, h4, h5, h6, h7⟩ := hS x hx
      exact ⟨a, b, h1, h2, h4, h5, h6, h7⟩
    · intro a b hab hbn hsim
      exact hC a b hab hbn hsim (Or.inl (by omega))
  | succ k ih =>
    intro i m hk hS hC hO
    have hin : i < labels.length := by omega
    unfold outerFrom
    rw [if_pos hin]
    by_cases hski : m (nthLabel labels i) ≠ nthLabel labels i
    · rw [if_pos hski]
      refine ih (i + 1) m (by omega) (MapSound_mono labels sim (by omega) m hS)
        ?_ hO
      intro a b hab hbn hsim hscope
      have ha : a < i + 1 := by
        rcases hscope with h | ⟨h1, h2⟩
        · exact h
        · omega
      by_cases hai : a < i
      · exact hC a b hab hbn hsim (Or.inl hai)
      · have : a = i := by omega
        left
        rw [this]
        exact hski
    · rw [if_neg hski]
      have hmi : m (nthLabel labels i) = nthLabel labels i := not_not.mp hski
      obtain ⟨hS2, hC2, hO2, hI2⟩ :=
        innerFrom_inv labels sim hnd i (labels.length - (i + 1)) (i + 1) m rfl
          (by omega) hS hC hO hmi
      refine ih (i + 1) _ (by omega)
        (MapSound_mono labels sim (by omega) _ hS2) ?_ hO2
      intro a b hab hbn hsim hscope
      have ha : a < i + 1 := by
        rcases hscope with h | ⟨h1, h2⟩
        · exact h
        · omega
      by_cases hai : a < i
      · exact hC2 a b hab hbn hsim (Or.inl hai)
      · have : a = i := by omega
        exact hC2 a b hab hbn hsim (Or.inr ⟨this, hbn⟩)

lemma buildNodeMap_props (labels : List (List Nat)) (sim : Nat → Nat → ℚ)
    (hnd : labels.Nodup) :
    (∀ x, buildNodeMap labels sim x ≠ x →
      ∃ a b, a < b ∧ b < labels.length ∧ x = nthLabel labels b ∧
        buildNodeMap labels sim x = nthLabel labels a ∧
        similarity_threshold < sim a b ∧
        buildNodeMap labels sim (nthLabel labels a) = nthLabel labels a)
    ∧ (∀ a b, a < b → b < labels.length → similarity_threshold < sim a b →
        buildNodeMap labels sim (nthLabel labels a) ≠ nthLabel labels a
        ∨ buildNodeMap labels sim (nthLabel labels b) ≠ nthLabel labels b)
    ∧ MapOutside labels (buildNodeMap labels sim) := by
  refine outerFrom_inv labels sim hnd labels.length 0 (fun x => x) (by omega)
    ?_ ?_ ?_
  · intro x hx
    exact absurd rfl hx
  · intro a b hab hbn hsim hscope
    rcases hscope with h | ⟨h1, h2⟩
    · omega
    · omega
  · intro x _
    rfl

lemma buildNodeMap_idem (labels : List (List Nat)) (sim : Nat → Nat → ℚ)
    (hnd : labels.Nodup) :
    ∀ x, buildNodeMap labels sim (buildNodeMap labels sim x)
      = buildNodeMap labels sim x := by
  intro x
  by_cases hx : buildNodeMap labels sim x = x
  · rw [hx]
    exact hx
  · obtain ⟨a, b, _, _, _, hxa, _, hcan⟩ := (buildNodeMap_props labels sim hnd).1 x hx
    rw [hxa]
    exact hcan

lemma resolveLabel_of_idem (m : List Nat → List Nat)
    (hidem : ∀ x, m (m x) = m x) :
    ∀ (fuel : Nat) (x : List Nat), 2 ≤ fuel → resolveLabel m fuel x = m x := by
  intro fuel x hf
  obtain ⟨f, rfl⟩ : ∃ f, fuel = f + 2 := ⟨fuel - 2, by omega⟩
  show resolveLabel m (f + 2) x = m x
  unfold resolveLabel
  split_ifs with h
  · exact h.symm
  · unfold resolveLabel
    rw [if_pos (hidem x)]

/-- C2: the merge map built by the similarity loop is idempotent: resolving
any label through it (the `while node_map.get(x, x) != x` loop, with any
fuel at least 2) terminates at `node_map[x]` itself; resolving a second time
returns the same canonical label, and that canonical label maps to itself. -/
theorem merge_resolution_idempotent :
    ∀ (labels : List (List Nat)) (sim : Nat → Nat → ℚ), labels.Nodup →
      ∀ (x : List Nat) (fuel : Nat), 2 ≤ fuel →
        resolveLabel (buildNodeMap labels sim) fuel x = buildNodeMap labels sim x
        ∧ resolveLabel (buildNodeMap labels sim) fuel
            (resolveLabel (buildNodeMap labels sim) fuel x)
          = resolveLabel (buildNodeMap labels sim) fuel x
        ∧ buildNodeMap labels sim
            (resolveLabel (buildNodeMap labels sim) fuel x)
          = resolveLabel (buildNodeMap labels sim) fuel x := by
  intro labels sim hnd x fuel hf
  have hidem := buildNodeMap_idem labels sim hnd
  have h1 := resolveLabel_of_idem (buildNodeMap labels sim) hidem fuel x hf
  refine ⟨h1, ?_, ?_⟩
  · rw [h1, resolveLabel_of_idem (buildNodeMap labels sim) hidem fuel _ hf]
    exact hidem x
  · rw [h1]
    exact hidem x

/-- C2 witness: a two-label instance with no merges, at fuel 2. -/
theorem merge_resolution_idempotent_witness :
    resolveLabel (buildNodeMap [codes "A", codes "B"] (fun _ _ => 0)) 2
        (codes "B")
      = buildNodeMap [codes "A", codes "B"] (fun _ _ => 0) (codes "B") :=
  (merge_resolution_idempotent [codes "A", codes "B"] (fun _ _ => 0)
    (by decide) (codes "B") 2 (by decide)).1

/-- C3: characterization of the similarity-merge loop.  Every redirection in
the final merge map sends `labels[j]` to an earlier, still-canonical label
`labels[i]` with `i < j` whose pairwise similarity exceeds the 0.85
threshold (pairs are visited with `i < j` and redirected labels are
skipped); conversely no pair of labels that both remain canonical has
similarity above the threshold; and labels outside the unique-label list
are never touched. -/
theorem similarity_merge_characterization :
    ∀ (labels : List (List Nat)) (sim : Nat → Nat → ℚ), labels.Nodup →
      (∀ x, buildNodeMap labels sim x ≠ x →
        ∃ i j, i < j ∧ j < labels.length ∧ x = nthLabel labels j ∧
          buildNodeMap labels sim x = nthLabel labels i ∧
          similarity_threshold < sim i j ∧
          buildNodeMap labels sim (nthLabel labels i) = nthLabel labels i)
      ∧ (∀ i j, i < j → j < labels.length → similarity_threshold < sim i j →
          buildNodeMap labels sim (nthLabel labels i) ≠ nthLabel labels i
          ∨ buildNodeMap labels sim (nthLabel labels j) ≠ nthLabel labels j)
      ∧ (∀ x, x ∉ labels → buildNodeMap labels sim x = x) := by
  intro labels sim hnd
  obtain ⟨h1, h2, h3⟩ := buildNodeMap_props labels sim hnd
  exact ⟨h1, h2, h3⟩

/-- C3 witness: with two labels whose similarity exceeds the threshold, the
pair does not survive with both labels canonical. -/
theorem similarity_merge_characterization_witness :
    buildNodeMap [codes "A", codes "B"] (fun _ _ => similarity_threshold + 1)
        (nthLabel [codes "A", codes "B"] 0)
      ≠ nthLabel [codes "A", codes "B"] 0
    ∨ buildNodeMap [codes "A", codes "B"] (fun _ _ => similarity_threshold + 1)
        (nthLabel [codes "A", codes "B"] 1)
      ≠ nthLabel [codes "A", codes "B"] 1 :=
  (similarity_merge_characterization [codes "A", codes "B"]
    (fun _ _ => similarity_threshold + 1) (by decide)).2.1 0 1
    (by decide) (by decide) (lt_add_one similarity_threshold)

end VizMind
